import Mathlib

/-!
Verification development for the room/session broker of the repository.

The Session Façade and the mock socket client (`src/src/contexts/SocketContext.tsx`)
are embedded directly from the source. The Room Registry, Broadcast Router and
Persistence Store live in a module (`@/lib/socket-mock`) that is not part of the
source tree here; those definitions are modelled from the specification, as their
doc comments state.
-/

namespace Broker

abbrev ClientId := String
abbrev RoomId := String

/-- Serialized form of the Room Registry: room identifiers to member lists. -/
abbrev Snapshot := List (RoomId × List ClientId)

/-- Association-list lookup by string key, returning the first binding. -/
def alookup {α : Type} : List (String × α) → String → Option α
  | [], _ => none
  | (k, v) :: t, key => if k = key then some v else alookup t key

/-- Remove every binding of a key from an association list. -/
def aremove {α : Type} : List (String × α) → String → List (String × α)
  | [], _ => []
  | (k, v) :: t, key => if k = key then aremove t key else (k, v) :: aremove t key

/-- Set the binding of a key: the new binding in front, all old ones removed. -/
def aset {α : Type} (l : List (String × α)) (key : String) (v : α) : List (String × α) :=
  (key, v) :: aremove l key

/-- Remove every occurrence of a client id from a member list. -/
def removeClient : List ClientId → ClientId → List ClientId
  | [], _ => []
  | x :: t, c => if x = c then removeClient t c else x :: removeClient t c

/-- State of the Room Registry: the rooms with their member lists (member order is
join order, the first joiner being host) together with the Membership Index mapping
each client to the room it currently occupies. -/
structure Registry where
  rooms : List (RoomId × List ClientId)
  index : List (ClientId × RoomId)
deriving DecidableEq

/-- The initial registry state: no rooms, no memberships. -/
def Registry.empty : Registry := ⟨[], []⟩

/-- Modelled from the spec: `leaveRoom(clientId)` removes the client from whatever
room it occupies (no-op if none), updates the Membership Index, and if the room
becomes empty it is removed, so that `roomExists` subsequently returns false. -/
def Registry.leaveRoom (s : Registry) (c : ClientId) : Registry :=
  match alookup s.index c with
  | none => s
  | some r =>
    match alookup s.rooms r with
    | none => { rooms := s.rooms, index := aremove s.index c }
    | some ms =>
      let ms2 := removeClient ms c
      { rooms := if ms2 = [] then aremove s.rooms r else aset s.rooms r ms2,
        index := aremove s.index c }

/-- Modelled from the spec: `joinRoom(clientId, roomId)` fails (returns false, never
throws) if the room does not exist or has reached the maximum membership bound `cap`;
joining while already a member of the same room is idempotent and reports success
without duplicating membership; otherwise the client is removed from any prior room
first, added to the target room, and the Membership Index is updated. -/
def Registry.joinRoom (s : Registry) (cap : Nat) (c : ClientId) (r : RoomId) :
    Bool × Registry :=
  match alookup s.rooms r with
  | none => (false, s)
  | some ms =>
    if c ∈ ms then (true, s)
    else if cap ≤ ms.length then (false, s)
    else
      let s1 := s.leaveRoom c
      match alookup s1.rooms r with
      | none => (false, s1)
      | some ms1 =>
        (true, { rooms := aset s1.rooms r (ms1 ++ [c]),
                 index := aset s1.index c r })

/-- Modelled from the spec: `createRoom(clientId)` commits a fresh, presently-unused
room identifier (generation retries on collision, so a candidate already in use
commits nothing) holding the client as sole member and host; the data-model invariant
that a client belongs to at most one room at a time requires removing any prior
membership of the creator. -/
def Registry.createRoom (s : Registry) (c : ClientId) (r : RoomId) : Registry :=
  if (alookup s.rooms r).isSome then s
  else
    let s1 := s.leaveRoom c
    { rooms := (r, [c]) :: s1.rooms, index := aset s1.index c r }

/-- One registry operation of the broker's mutating interface. -/
inductive Op where
  | create (c : ClientId) (r : RoomId)
  | join (c : ClientId) (r : RoomId)
  | leave (c : ClientId)

/-- Apply one operation to a registry state. -/
def Registry.step (cap : Nat) (s : Registry) : Op → Registry
  | .create c r => s.createRoom c r
  | .join c r => (s.joinRoom cap c r).2
  | .leave c => s.leaveRoom c

/-- Run a sequence of operations from the initial registry state. -/
def Registry.run (cap : Nat) (ops : List Op) : Registry :=
  ops.foldl (Registry.step cap) Registry.empty

/-- The member list of a room, empty when the room does not exist. -/
def membersOf (s : Registry) (r : RoomId) : List ClientId :=
  (alookup s.rooms r).getD []

/-- Bidirectional consistency of the Membership Index with the room member sets:
every client-to-room pointer has a matching entry in that room's member set, and
every member of a room points back at that room in the index. -/
def Consistent (s : Registry) : Prop :=
  (∀ p ∈ s.index, (p : ClientId × RoomId).1 ∈ membersOf s p.2) ∧
  (∀ q ∈ s.rooms, ∀ c ∈ (q : RoomId × List ClientId).2, alookup s.index c = some q.1)

/-- Structural well-formedness of a registry: room keys and index keys are unshadowed
and member lists hold no duplicates. -/
def RegWF (s : Registry) : Prop :=
  (s.rooms.map Prod.fst).Nodup ∧ (s.index.map Prod.fst).Nodup ∧
  (∀ q ∈ s.rooms, (q : RoomId × List ClientId).2.Nodup)

/-- The full registry invariant. -/
def Inv (s : Registry) : Prop := RegWF s ∧ Consistent s

instance (s : Registry) : Decidable (Consistent s) := by
  unfold Consistent
  infer_instance

instance (s : Registry) : Decidable (RegWF s) := by
  unfold RegWF
  infer_instance

instance (s : Registry) : Decidable (Inv s) := by
  unfold Inv
  infer_instance

/-- From src lines 52-71, the mock socket's join-room emit branch: it first clears
the client's old room data via the registry `leaveRoom`, reloads the persistent
rooms (a freshness no-op within one process, every mutation having persisted the
snapshot), and then attempts the registry `joinRoom`, whose boolean it reports. -/
def emitJoinRoom (s : Registry) (cap : Nat) (c : ClientId) (r : RoomId) :
    Bool × Registry :=
  (s.leaveRoom c).joinRoom cap c r

/-- Client-side state of the Session Façade: its current room id and the
connection flag. -/
structure Facade where
  roomId : Option RoomId
  connected : Bool
deriving DecidableEq

/-- From src lines 94-99 and 191-200: `disconnect` invokes the socket's disconnect
listeners; the provider's handler clears the connection flag and the façade room id.
No registry operation runs and nothing is broadcast, so the registry state passes
through unchanged and the list of rooms receiving a player-left broadcast is empty. -/
def disconnectClient (f : Facade) (s : Registry) :
    Facade × Registry × List RoomId :=
  (⟨none, false⟩, s, [])

/-- From src lines 344-353 and 72-75: the façade's `leaveRoom` emits a leave-room
event when it holds a room id, and the emit branch calls the registry `leaveRoom`;
the registry signals player-left scoped to the vacated room (modelled from the spec),
no room being vacated when the client occupies none. -/
def facadeLeaveRoom (f : Facade) (s : Registry) (c : ClientId) :
    Facade × Registry × List RoomId :=
  match f.roomId with
  | none => (f, s, [])
  | some _ =>
    match alookup s.index c with
    | none => (⟨none, f.connected⟩, s.leaveRoom c, [])
    | some r0 => (⟨none, f.connected⟩, s.leaveRoom c, [r0])

/-- From src lines 255-341 together with the emit branches (lines 52-75): the
Session Façade's `joinRoom`. It throws (modelled as `none`) when there is no socket;
otherwise it first clears any existing room (emitting leave-room), then validates
the 6-character code, then pre-checks room existence, and only then issues the
join-room request. The names of events emitted on the channel are recorded in
order alongside the boolean result, the façade state and the registry state. -/
def facadeJoinRoom (hasSocket : Bool) (cap : Nat) (f : Facade) (s : Registry)
    (c : ClientId) (input : String) :
    Option (Bool × Facade × Registry × List String) :=
  if hasSocket = false then none
  else
    let cleared : Facade × Registry × List String :=
      match f.roomId with
      | some _ => (⟨none, f.connected⟩, s.leaveRoom c, ["leave-room"])
      | none => (f, s, [])
    let f1 := cleared.1
    let s1 := cleared.2.1
    let evs := cleared.2.2
    if input.length ≠ 6 then some (false, f1, s1, evs)
    else if (alookup s1.rooms input).isNone then some (false, f1, s1, evs)
    else
      let res := emitJoinRoom s1 cap c input
      some (res.1, ⟨if res.1 then some input else none, f1.connected⟩,
            res.2, evs ++ ["join-room"])

/-- Modelled from the spec: the Persistence Store is durable storage holding the
most recently saved snapshot. -/
structure Store where
  saved : Snapshot
deriving DecidableEq

/-- Modelled from the spec: `save(Snapshot)` overwrites the stored snapshot. -/
def Store.save (st : Store) (snap : Snapshot) : Store := ⟨snap⟩

/-- Modelled from the spec: `load()` returns the stored snapshot and leaves the
store unchanged, so repeated loads are safe. -/
def Store.load (st : Store) : Snapshot × Store := (st.saved, st)

/-- The snapshot persisted for a registry: its rooms with their member lists. -/
def snapshotOf (s : Registry) : Snapshot := s.rooms

/-- The Membership Index derived from a snapshot's member lists. -/
def indexOfSnapshot : Snapshot → List (ClientId × RoomId)
  | [] => []
  | (r, ms) :: t => ms.map (fun c => (c, r)) ++ indexOfSnapshot t

/-- Modelled from the spec: registry initialization from a persisted snapshot; the
rooms are read back and the Membership Index is derived from the member lists. -/
def registryOfSnapshot (snap : Snapshot) : Registry :=
  ⟨snap, indexOfSnapshot snap⟩

/-- An Event Channel's listener table: event name to handlers in registration
order, handlers drawn from an arbitrary type. -/
structure Channel (H : Type) where
  listeners : List (String × List H)

/-- From src lines 16-22: `on(event, callback)` appends the callback to the
event's listener list, creating it when absent. -/
def Channel.on {H : Type} (ch : Channel H) (e : String) (h : H) : Channel H :=
  match alookup ch.listeners e with
  | none => ⟨aset ch.listeners e [h]⟩
  | some hs => ⟨aset ch.listeners e (hs ++ [h])⟩

/-- Register a sequence of (event name, handler) subscriptions in order. -/
def Channel.onAll {H : Type} (ch : Channel H) (subs : List (String × H)) : Channel H :=
  subs.foldl (fun c p => c.on p.1 p.2) ch

/-- From src lines 102-107: `receive(event)` invokes the event's listeners in
list order; the value is the invocation sequence. -/
def Channel.receive {H : Type} (ch : Channel H) (e : String) : List H :=
  (alookup ch.listeners e).getD []

/-- The handlers subscribed under a given event name, in registration order, read
off the subscription sequence itself (the spec's wording of the contract). -/
def selectFor {H : Type} (e : String) : List (String × H) → List H
  | [] => []
  | p :: t => if p.1 = e then p.2 :: selectFor e t else selectFor e t

/-- From src lines 76-82 and 133-138: a drawing broadcast scoped to a room is
delivered to exactly those connected clients whose current room per the Membership
Index (`getRoomForClient`) equals the event's room id; the value is the list of
clients whose channel receives the drawing-update. -/
def broadcastDrawing (s : Registry) (clients : List ClientId) (r : RoomId) :
    List ClientId :=
  clients.filter (fun c => decide (alookup s.index c = some r))

/-- Settlement state of a request's promise. -/
inductive PState (α : Type) where
  | pending
  | resolved (v : α)
  | rejectedTimeout
deriving DecidableEq

/-- Resolution of a promise: a promise that has already settled is unchanged. -/
def settleResolve {α : Type} (p : PState α) (v : α) : PState α :=
  match p with
  | .pending => .resolved v
  | s => s

/-- Rejection of a promise: a promise that has already settled is unchanged. -/
def settleReject {α : Type} (p : PState α) : PState α :=
  match p with
  | .pending => .rejectedTimeout
  | s => s

/-- State of one in-flight request: its promise and whether the timeout timer is
still armed. -/
structure ReqState (α : Type) where
  promise : PState α
  timerArmed : Bool
deriving DecidableEq

/-- A happening during a request's lifetime: the timeout timer firing, or the
acknowledgement callback arriving with its value. -/
inductive Happening (α : Type) where
  | timerFires
  | ackArrives (v : α)

/-- From src lines 216-251 and 294-341: the timer handler rejects the promise (only
an armed timer fires); the acknowledgement callback clears the timer and resolves
the promise. A promise already settled ignores the later settlement attempt. -/
def stepReq {α : Type} (st : ReqState α) : Happening α → ReqState α
  | .timerFires =>
    if st.timerArmed then ⟨settleReject st.promise, false⟩ else st
  | .ackArrives v => ⟨settleResolve st.promise v, false⟩

/-- The timeout bound applied to create-room and join-room requests, from src
lines 226 and 304 (milliseconds). -/
def requestTimeoutMs : Nat := 5000

/-- The time-ordered happenings of one request whose acknowledgement arrives at
`ackTime` (none when it never arrives): an acknowledgement strictly before the
bound clears the timer before it fires; otherwise the timer fires at the bound
and a late acknowledgement, if any, arrives after it. -/
def schedule {α : Type} (ackTime : Option Nat) (v : α) : List (Happening α) :=
  match ackTime with
  | none => [.timerFires]
  | some t =>
    if t < requestTimeoutMs then [.ackArrives v, .timerFires]
    else [.timerFires, .ackArrives v]

/-- The final request state after processing all happenings of a request. -/
def runRequest {α : Type} (ackTime : Option Nat) (v : α) : ReqState α :=
  (schedule ackTime v).foldl stepReq ⟨.pending, true⟩

/-- The time at which the request settles: the acknowledgement time when it beats
the timeout, the timeout bound otherwise. -/
def settleTime (ackTime : Option Nat) : Nat :=
  match ackTime with
  | none => requestTimeoutMs
  | some t => min t requestTimeoutMs

theorem alookup_cons {α : Type} (k : String) (v : α) (t : List (String × α))
    (key : String) :
    alookup ((k, v) :: t) key = if k = key then some v else alookup t key := rfl

theorem aremove_cons {α : Type} (k : String) (v : α) (t : List (String × α))
    (key : String) :
    aremove ((k, v) :: t) key =
      if k = key then aremove t key else (k, v) :: aremove t key := rfl

theorem mem_aremove {α : Type} {l : List (String × α)} {key : String}
    {p : String × α} : p ∈ aremove l key ↔ p ∈ l ∧ p.1 ≠ key := by
  induction l with
  | nil => simp [aremove]
  | cons q t ih =>
    obtain ⟨k, v⟩ := q
    rw [aremove_cons]
    by_cases h : k = key
    · rw [if_pos h, ih]
      subst h
      constructor
      · rintro ⟨hp, hne⟩
        exact ⟨List.mem_cons_of_mem _ hp, hne⟩
      · rintro ⟨hp, hne⟩
        rcases List.mem_cons.mp hp with rfl | hp2
        · exact absurd rfl hne
        · exact ⟨hp2, hne⟩
    · rw [if_neg h]
      constructor
      · intro hp
        rcases List.mem_cons.mp hp with rfl | hp2
        · exact ⟨List.mem_cons_self _ _, h⟩
        · obtain ⟨hq, hne⟩ := ih.mp hp2
          exact ⟨List.mem_cons_of_mem _ hq, hne⟩
      · rintro ⟨hp, hne⟩
        rcases List.mem_cons.mp hp with rfl | hp2
        · exact List.mem_cons_self _ _
        · exact List.mem_cons_of_mem _ (ih.mpr ⟨hp2, hne⟩)

theorem aremove_sublist {α : Type} (l : List (String × α)) (key : String) :
    List.Sublist (aremove l key) l := by
  induction l with
  | nil => exact List.Sublist.refl _
  | cons q t ih =>
    obtain ⟨k, v⟩ := q
    rw [aremove_cons]
    by_cases h : k = key
    · rw [if_pos h]
      exact ih.cons _
    · rw [if_neg h]
      exact ih.cons₂ _

theorem alookup_aremove_self {α : Type} (l : List (String × α)) (key : String) :
    alookup (aremove l key) key = none := by
  induction l with
  | nil => rfl
  | cons q t ih =>
    obtain ⟨k, v⟩ := q
    rw [aremove_cons]
    by_cases h : k = key
    · rw [if_pos h]
      exact ih
    · rw [if_neg h, alookup_cons, if_neg h]
      exact ih

theorem alookup_aremove_ne {α : Type} {l : List (String × α)} {key k2 : String}
    (h : k2 ≠ key) : alookup (aremove l key) k2 = alookup l k2 := by
  induction l with
  | nil => rfl
  | cons q t ih =>
    obtain ⟨k, v⟩ := q
    rw [aremove_cons]
    by_cases hk : k = key
    · rw [if_pos hk, ih, alookup_cons,
        if_neg (show ¬ k = k2 from fun he => h (he ▸ hk))]
    · rw [if_neg hk, alookup_cons, alookup_cons, ih]

theorem alookup_aset_self {α : Type} (l : List (String × α)) (key : String)
    (v : α) : alookup (aset l key v) key = some v := by
  rw [aset, alookup_cons, if_pos rfl]

theorem alookup_aset_ne {α : Type} {l : List (String × α)} {key k2 : String}
    (h : k2 ≠ key) (v : α) : alookup (aset l key v) k2 = alookup l k2 := by
  rw [aset, alookup_cons, if_neg (fun he => h he.symm), alookup_aremove_ne h]

theorem mem_aset {α : Type} {l : List (String × α)} {key : String} {v : α}
    {p : String × α} :
    p ∈ aset l key v ↔ p = (key, v) ∨ (p ∈ l ∧ p.1 ≠ key) := by
  rw [aset, List.mem_cons, mem_aremove]

theorem mem_of_alookup {α : Type} {l : List (String × α)} {k : String} {v : α}
    (h : alookup l k = some v) : (k, v) ∈ l := by
  induction l with
  | nil => cases h
  | cons q t ih =>
    obtain ⟨k1, v1⟩ := q
    rw [alookup_cons] at h
    by_cases hk : k1 = k
    · rw [if_pos hk] at h
      injection h with hv
      subst hk
      subst hv
      exact List.mem_cons_self _ _
    · rw [if_neg hk] at h
      exact List.mem_cons_of_mem _ (ih h)

theorem alookup_of_mem_nodup {α : Type} {l : List (String × α)}
    (h : (l.map Prod.fst).Nodup) {k : String} {v : α} (hm : (k, v) ∈ l) :
    alookup l k = some v := by
  induction l with
  | nil => cases hm
  | cons q t ih =>
    obtain ⟨k1, v1⟩ := q
    rw [List.map_cons, List.nodup_cons] at h
    rw [alookup_cons]
    rcases List.mem_cons.mp hm with heq | hmem
    · injection heq with h1 h2
      subst h1
      subst h2
      rw [if_pos rfl]
    · by_cases hk : k1 = k
      · exfalso
        apply h.1
        rw [hk]
        exact List.mem_map.mpr ⟨(k, v), hmem, rfl⟩
      · rw [if_neg hk]
        exact ih h.2 hmem

theorem alookup_eq_none {α : Type} {l : List (String × α)} {k : String} :
    alookup l k = none ↔ ∀ p ∈ l, (p : String × α).1 ≠ k := by
  induction l with
  | nil => simp [alookup]
  | cons q t ih =>
    obtain ⟨k1, v1⟩ := q
    rw [alookup_cons]
    by_cases hk : k1 = k
    · rw [if_pos hk]
      constructor
      · intro h
        cases h
      · intro h
        exact absurd hk (h (k1, v1) (List.mem_cons_self _ _))
    · rw [if_neg hk, ih]
      constructor
      · intro hall p hp
        rcases List.mem_cons.mp hp with rfl | hp2
        · exact hk
        · exact hall p hp2
      · intro hall p hp
        exact hall p (List.mem_cons_of_mem _ hp)

theorem not_mem_keys_aremove {α : Type} (l : List (String × α)) (key : String) :
    key ∉ (aremove l key).map Prod.fst := by
  intro hmem
  obtain ⟨p, hp, hpk⟩ := List.mem_map.mp hmem
  exact (mem_aremove.mp hp).2 hpk

theorem nodup_keys_aremove {α : Type} {l : List (String × α)}
    (h : (l.map Prod.fst).Nodup) (key : String) :
    ((aremove l key).map Prod.fst).Nodup :=
  ((aremove_sublist l key).map Prod.fst).nodup h

theorem nodup_keys_aset {α : Type} {l : List (String × α)}
    (h : (l.map Prod.fst).Nodup) (key : String) (v : α) :
    ((aset l key v).map Prod.fst).Nodup := by
  rw [aset, List.map_cons]
  exact List.nodup_cons.mpr ⟨not_mem_keys_aremove l key, nodup_keys_aremove h key⟩

theorem removeClient_cons (x : ClientId) (t : List ClientId) (c : ClientId) :
    removeClient (x :: t) c =
      if x = c then removeClient t c else x :: removeClient t c := rfl

theorem mem_removeClient {l : List ClientId} {c x : ClientId} :
    x ∈ removeClient l c ↔ x ∈ l ∧ x ≠ c := by
  induction l with
  | nil => simp [removeClient]
  | cons y t ih =>
    rw [removeClient_cons]
    by_cases h : y = c
    · rw [if_pos h, ih]
      subst h
      constructor
      · rintro ⟨hx, hne⟩
        exact ⟨List.mem_cons_of_mem _ hx, hne⟩
      · rintro ⟨hx, hne⟩
        rcases List.mem_cons.mp hx with rfl | hx2
        · exact absurd rfl hne
        · exact ⟨hx2, hne⟩
    · rw [if_neg h]
      constructor
      · intro hx
        rcases List.mem_cons.mp hx with rfl | hx2
        · exact ⟨List.mem_cons_self _ _, h⟩
        · obtain ⟨hq, hne⟩ := ih.mp hx2
          exact ⟨List.mem_cons_of_mem _ hq, hne⟩
      · rintro ⟨hx, hne⟩
        rcases List.mem_cons.mp hx with rfl | hx2
        · exact List.mem_cons_self _ _
        · exact List.mem_cons_of_mem _ (ih.mpr ⟨hx2, hne⟩)

theorem removeClient_sublist (l : List ClientId) (c : ClientId) :
    List.Sublist (removeClient l c) l := by
  induction l with
  | nil => exact List.Sublist.refl _
  | cons y t ih =>
    rw [removeClient_cons]
    by_cases h : y = c
    · rw [if_pos h]
      exact ih.cons _
    · rw [if_neg h]
      exact ih.cons₂ _

theorem nodup_removeClient {l : List ClientId} (h : l.Nodup) (c : ClientId) :
    (removeClient l c).Nodup :=
  (removeClient_sublist l c).nodup h

theorem removeClient_eq_nil {l : List ClientId} {c : ClientId} :
    removeClient l c = [] ↔ ∀ x ∈ l, x = c := by
  induction l with
  | nil => simp [removeClient]
  | cons y t ih =>
    rw [removeClient_cons]
    by_cases h : y = c
    · rw [if_pos h, ih]
      subst h
      constructor
      · intro hall x hx
        rcases List.mem_cons.mp hx with rfl | hx2
        · rfl
        · exact hall x hx2
      · intro hall x hx
        exact hall x (List.mem_cons_of_mem _ hx)
    · rw [if_neg h]
      constructor
      · intro hcontra
        cases hcontra
      · intro hall
        exact absurd (hall y (List.mem_cons_self _ _)) h

theorem membersOf_eq {s : Registry} {r : RoomId} {ms : List ClientId}
    (h : alookup s.rooms r = some ms) : membersOf s r = ms := by
  rw [membersOf, h]
  rfl

theorem membersOf_nil {s : Registry} {r : RoomId}
    (h : alookup s.rooms r = none) : membersOf s r = [] := by
  rw [membersOf, h]
  rfl

theorem leaveRoom_eq_noop {s : Registry} {c : ClientId}
    (h : alookup s.index c = none) : s.leaveRoom c = s := by
  rw [Registry.leaveRoom, h]

theorem leaveRoom_eq_orphan {s : Registry} {c : ClientId} {r : RoomId}
    (h : alookup s.index c = some r) (h2 : alookup s.rooms r = none) :
    s.leaveRoom c = { rooms := s.rooms, index := aremove s.index c } := by
  simp [Registry.leaveRoom, h, h2]

theorem leaveRoom_eq_found {s : Registry} {c : ClientId} {r : RoomId}
    {ms : List ClientId}
    (h : alookup s.index c = some r) (h2 : alookup s.rooms r = some ms) :
    s.leaveRoom c =
      { rooms := if removeClient ms c = [] then aremove s.rooms r
                 else aset s.rooms r (removeClient ms c),
        index := aremove s.index c } := by
  simp [Registry.leaveRoom, h, h2]

theorem leaveRoom_index_self (s : Registry) (c : ClientId) :
    alookup (s.leaveRoom c).index c = none := by
  cases h : alookup s.index c with
  | none =>
    rw [leaveRoom_eq_noop h]
    exact h
  | some r =>
    cases h2 : alookup s.rooms r with
    | none =>
      rw [leaveRoom_eq_orphan h h2]
      exact alookup_aremove_self _ _
    | some ms =>
      rw [leaveRoom_eq_found h h2]
      exact alookup_aremove_self _ _

theorem leaveRoom_rooms_none {s : Registry} {r : RoomId} (c : ClientId)
    (h : alookup s.rooms r = none) :
    alookup (s.leaveRoom c).rooms r = none := by
  cases hi : alookup s.index c with
  | none =>
    rw [leaveRoom_eq_noop hi]
    exact h
  | some r0 =>
    cases h2 : alookup s.rooms r0 with
    | none =>
      rw [leaveRoom_eq_orphan hi h2]
      exact h
    | some ms =>
      have hne : r ≠ r0 := by
        intro he
        rw [he, h2] at h
        cases h
      rw [leaveRoom_eq_found hi h2]
      by_cases hz : removeClient ms c = []
      · rw [if_pos hz]
        rw [alookup_aremove_ne hne]
        exact h
      · rw [if_neg hz]
        rw [alookup_aset_ne hne]
        exact h

theorem Inv_leaveRoom {s : Registry} (hs : Inv s) (c : ClientId) :
    Inv (s.leaveRoom c) := by
  obtain ⟨⟨hrk, hik, hmn⟩, hc1, hc2⟩ := hs
  cases h : alookup s.index c with
  | none =>
    rw [leaveRoom_eq_noop h]
    exact ⟨⟨hrk, hik, hmn⟩, hc1, hc2⟩
  | some r =>
    cases h2 : alookup s.rooms r with
    | none =>
      exfalso
      have hmem := hc1 (c, r) (mem_of_alookup h)
      rw [membersOf_nil h2] at hmem
      cases hmem
    | some ms =>
      rw [leaveRoom_eq_found h h2]
      by_cases hz : removeClient ms c = []
      · rw [if_pos hz]
        have hallc : ∀ x ∈ ms, x = c := removeClient_eq_nil.mp hz
        refine ⟨⟨nodup_keys_aremove hrk r, nodup_keys_aremove hik c, ?_⟩, ?_, ?_⟩
        · intro q hq
          exact hmn q (mem_aremove.mp hq).1
        · rintro ⟨c1, r1⟩ hp
          obtain ⟨hpl, hpc⟩ := mem_aremove.mp hp
          have h1 := hc1 (c1, r1) hpl
          have hne : r1 ≠ r := by
            intro he
            rw [he, membersOf_eq h2] at h1
            exact hpc (hallc c1 h1)
          rw [membersOf]
          show c1 ∈ (alookup (aremove s.rooms r) r1).getD []
          rw [alookup_aremove_ne hne]
          exact h1
        · rintro ⟨r1, ms1⟩ hq c2 hc2m
          obtain ⟨hql, hqr⟩ := mem_aremove.mp hq
          have hidx := hc2 (r1, ms1) hql c2 hc2m
          have hcne : c2 ≠ c := by
            intro he
            rw [he, h] at hidx
            injection hidx with hrr
            exact hqr hrr.symm
          rw [alookup_aremove_ne hcne]
          exact hidx
      · rw [if_neg hz]
        refine ⟨⟨nodup_keys_aset hrk r _, nodup_keys_aremove hik c, ?_⟩, ?_, ?_⟩
        · intro q hq
          rcases mem_aset.mp hq with rfl | ⟨hql, _⟩
          · exact nodup_removeClient (hmn (r, ms) (mem_of_alookup h2)) c
          · exact hmn q hql
        · rintro ⟨c1, r1⟩ hp
          obtain ⟨hpl, hpc⟩ := mem_aremove.mp hp
          have h1 := hc1 (c1, r1) hpl
          rw [membersOf]
          by_cases hr1 : r1 = r
          · subst hr1
            show c1 ∈ (alookup (aset s.rooms r1 (removeClient ms c)) r1).getD []
            rw [alookup_aset_self]
            rw [membersOf_eq h2] at h1
            exact mem_removeClient.mpr ⟨h1, hpc⟩
          · show c1 ∈ (alookup (aset s.rooms r (removeClient ms c)) r1).getD []
            rw [alookup_aset_ne hr1]
            exact h1
        · rintro ⟨r1, ms1⟩ hq c2 hc2m
          rcases mem_aset.mp hq with heq | ⟨hql, hqr⟩
          · injection heq with he1 he2
            subst he1
            subst he2
            obtain ⟨hin, hcne⟩ := mem_removeClient.mp hc2m
            have hidx := hc2 (r1, ms) (mem_of_alookup h2) c2 hin
            rw [alookup_aremove_ne hcne]
            exact hidx
          · have hidx := hc2 (r1, ms1) hql c2 hc2m
            have hcne : c2 ≠ c := by
              intro he
              rw [he, h] at hidx
              injection hidx with hrr
              exact hqr hrr.symm
            rw [alookup_aremove_ne hcne]
            exact hidx

theorem joinRoom_eq_missing {s : Registry} (cap : Nat) (c : ClientId)
    {r : RoomId} (h : alookup s.rooms r = none) :
    s.joinRoom cap c r = (false, s) := by
  simp [Registry.joinRoom, h]

theorem joinRoom_eq_member {s : Registry} (cap : Nat) {c : ClientId}
    {r : RoomId} {ms : List ClientId} (h : alookup s.rooms r = some ms)
    (hm : c ∈ ms) : s.joinRoom cap c r = (true, s) := by
  simp [Registry.joinRoom, h, hm]

theorem joinRoom_eq_full {s : Registry} {cap : Nat} {c : ClientId}
    {r : RoomId} {ms : List ClientId} (h : alookup s.rooms r = some ms)
    (hm : c ∉ ms) (hcap : cap ≤ ms.length) :
    s.joinRoom cap c r = (false, s) := by
  simp [Registry.joinRoom, h, hm, hcap]

theorem joinRoom_eq_vanished {s : Registry} {cap : Nat} {c : ClientId}
    {r : RoomId} {ms : List ClientId} (h : alookup s.rooms r = some ms)
    (hm : c ∉ ms) (hcap : ¬ cap ≤ ms.length)
    (h1 : alookup (s.leaveRoom c).rooms r = none) :
    s.joinRoom cap c r = (false, s.leaveRoom c) := by
  simp [Registry.joinRoom, h, hm, hcap, h1]

theorem joinRoom_eq_add {s : Registry} {cap : Nat} {c : ClientId}
    {r : RoomId} {ms ms1 : List ClientId} (h : alookup s.rooms r = some ms)
    (hm : c ∉ ms) (hcap : ¬ cap ≤ ms.length)
    (h1 : alookup (s.leaveRoom c).rooms r = some ms1) :
    s.joinRoom cap c r =
      (true, { rooms := aset (s.leaveRoom c).rooms r (ms1 ++ [c]),
               index := aset (s.leaveRoom c).index c r }) := by
  simp [Registry.joinRoom, h, hm, hcap, h1]

theorem createRoom_eq_used {s : Registry} {c : ClientId} {r : RoomId}
    (h : (alookup s.rooms r).isSome) : s.createRoom c r = s := by
  rw [Registry.createRoom, if_pos h]

theorem createRoom_eq_fresh {s : Registry} {c : ClientId} {r : RoomId}
    (h : alookup s.rooms r = none) :
    s.createRoom c r =
      { rooms := (r, [c]) :: (s.leaveRoom c).rooms,
        index := aset (s.leaveRoom c).index c r } := by
  rw [Registry.createRoom, if_neg (by rw [h]; exact Bool.false_ne_true)]

theorem not_mem_of_index_none {s : Registry} (hs : Inv s) {c : ClientId}
    (h : alookup s.index c = none) {r : RoomId} {ms : List ClientId}
    (hr : alookup s.rooms r = some ms) : c ∉ ms := by
  intro hm
  have := hs.2.2 (r, ms) (mem_of_alookup hr) c hm
  rw [h] at this
  cases this

theorem Inv_addMember {t : Registry} (ht : Inv t) {c : ClientId} {r : RoomId}
    {ms1 : List ClientId} (hidx : alookup t.index c = none)
    (hms : alookup t.rooms r = some ms1) :
    Inv { rooms := aset t.rooms r (ms1 ++ [c]), index := aset t.index c r } := by
  obtain ⟨⟨hrk, hik, hmn⟩, hc1, hc2⟩ := ht
  have hcnot : c ∉ ms1 :=
    not_mem_of_index_none ⟨⟨hrk, hik, hmn⟩, hc1, hc2⟩ hidx hms
  refine ⟨⟨nodup_keys_aset hrk r _, nodup_keys_aset hik c r, ?_⟩, ?_, ?_⟩
  · intro q hq
    rcases mem_aset.mp hq with rfl | ⟨hql, _⟩
    · show (ms1 ++ [c]).Nodup
      rw [List.nodup_append]
      refine ⟨hmn (r, ms1) (mem_of_alookup hms), List.nodup_singleton c, ?_⟩
      intro x hx hx2
      rw [List.mem_singleton] at hx2
      subst hx2
      exact hcnot hx
    · exact hmn q hql
  · rintro ⟨c1, r1⟩ hp
    rcases mem_aset.mp hp with heq | ⟨hpl, hpc⟩
    · injection heq with he1 he2
      subst he1
      subst he2
      rw [membersOf]
      show c1 ∈ (alookup (aset t.rooms r1 (ms1 ++ [c1])) r1).getD []
      rw [alookup_aset_self]
      exact List.mem_append_right _ (List.mem_singleton.mpr rfl)
    · have h1 := hc1 (c1, r1) hpl
      rw [membersOf]
      by_cases hr1 : r1 = r
      · subst hr1
        show c1 ∈ (alookup (aset t.rooms r1 (ms1 ++ [c])) r1).getD []
        rw [alookup_aset_self]
        rw [membersOf_eq hms] at h1
        exact List.mem_append_left _ h1
      · show c1 ∈ (alookup (aset t.rooms r (ms1 ++ [c])) r1).getD []
        rw [alookup_aset_ne hr1]
        exact h1
  · rintro ⟨r1, ms2⟩ hq c2 hc2m
    rcases mem_aset.mp hq with heq | ⟨hql, hqr⟩
    · injection heq with he1 he2
      subst he1
      subst he2
      rcases List.mem_append.mp hc2m with hin | hsing
      · have hidx2 := hc2 (r1, ms1) (mem_of_alookup hms) c2 hin
        have hcne : c2 ≠ c := by
          intro he
          rw [he, hidx] at hidx2
          cases hidx2
        rw [alookup_aset_ne hcne]
        exact hidx2
      · rw [List.mem_singleton] at hsing
        subst hsing
        exact alookup_aset_self _ _ _
    · have hidx2 := hc2 (r1, ms2) hql c2 hc2m
      have hcne : c2 ≠ c := by
        intro he
        rw [he, hidx] at hidx2
        cases hidx2
      rw [alookup_aset_ne hcne]
      exact hidx2

theorem Inv_joinRoom {s : Registry} (hs : Inv s) (cap : Nat) (c : ClientId)
    (r : RoomId) : Inv (s.joinRoom cap c r).2 := by
  cases h : alookup s.rooms r with
  | none =>
    rw [joinRoom_eq_missing cap c h]
    exact hs
  | some ms =>
    by_cases hm : c ∈ ms
    · rw [joinRoom_eq_member cap h hm]
      exact hs
    · by_cases hcap : cap ≤ ms.length
      · rw [joinRoom_eq_full h hm hcap]
        exact hs
      · cases h1 : alookup (s.leaveRoom c).rooms r with
        | none =>
          rw [joinRoom_eq_vanished h hm hcap h1]
          exact Inv_leaveRoom hs c
        | some ms1 =>
          rw [joinRoom_eq_add h hm hcap h1]
          exact Inv_addMember (Inv_leaveRoom hs c)
            (leaveRoom_index_self s c) h1

theorem Inv_createRoom {s : Registry} (hs : Inv s) (c : ClientId)
    (r : RoomId) : Inv (s.createRoom c r) := by
  cases h : alookup s.rooms r with
  | some ms =>
    rw [createRoom_eq_used (by rw [h]; rfl)]
    exact hs
  | none =>
    rw [createRoom_eq_fresh h]
    obtain ⟨⟨hrk, hik, hmn⟩, hc1, hc2⟩ := Inv_leaveRoom hs c
    have hidx : alookup (s.leaveRoom c).index c = none := leaveRoom_index_self s c
    have hroom : alookup (s.leaveRoom c).rooms r = none := leaveRoom_rooms_none c h
    refine ⟨⟨?_, nodup_keys_aset hik c r, ?_⟩, ?_, ?_⟩
    · rw [List.map_cons]
      refine List.nodup_cons.mpr ⟨?_, hrk⟩
      intro hmem
      obtain ⟨p, hp, hpk⟩ := List.mem_map.mp hmem
      exact (alookup_eq_none.mp hroom p hp) hpk
    · intro q hq
      rcases List.mem_cons.mp hq with rfl | hq2
      · exact List.nodup_singleton c
      · exact hmn q hq2
    · rintro ⟨c1, r1⟩ hp
      rcases mem_aset.mp hp with heq | ⟨hpl, hpc⟩
      · injection heq with he1 he2
        subst he1
        subst he2
        rw [membersOf]
        show c1 ∈ (alookup ((r1, [c1]) :: (s.leaveRoom c1).rooms) r1).getD []
        rw [alookup_cons, if_pos rfl]
        exact List.mem_singleton.mpr rfl
      · have h1 := hc1 (c1, r1) hpl
        have hr1 : r1 ≠ r := by
          intro he
          rw [membersOf, he, hroom] at h1
          cases h1
        rw [membersOf]
        show c1 ∈ (alookup ((r, [c]) :: (s.leaveRoom c).rooms) r1).getD []
        rw [alookup_cons, if_neg (fun he => hr1 he.symm)]
        exact h1
    · rintro ⟨r1, ms1⟩ hq c2 hc2m
      rcases List.mem_cons.mp hq with heq | hq2
      · injection heq with he1 he2
        subst he1
        subst he2
        rw [List.mem_singleton] at hc2m
        subst hc2m
        exact alookup_aset_self _ _ _
      · have hidx2 := hc2 (r1, ms1) hq2 c2 hc2m
        have hcne : c2 ≠ c := by
          intro he
          rw [he, hidx] at hidx2
          cases hidx2
        rw [alookup_aset_ne hcne]
        exact hidx2

theorem Inv_step {s : Registry} (hs : Inv s) (cap : Nat) (op : Op) :
    Inv (s.step cap op) := by
  cases op with
  | create c r => exact Inv_createRoom hs c r
  | join c r => exact Inv_joinRoom hs cap c r
  | leave c => exact Inv_leaveRoom hs c

theorem Inv_empty : Inv Registry.empty := by
  refine ⟨⟨List.nodup_nil, List.nodup_nil, ?_⟩, ?_, ?_⟩
  · intro q hq
    cases hq
  · intro p hp
    cases hp
  · intro q hq
    cases hq

theorem Inv_run (cap : Nat) (ops : List Op) : Inv (Registry.run cap ops) := by
  rw [Registry.run]
  have hgen : ∀ (s : Registry), Inv s → Inv (ops.foldl (Registry.step cap) s) := by
    induction ops with
    | nil => intro s hs; exact hs
    | cons op t ih =>
      intro s hs
      exact ih _ (Inv_step hs cap op)
  exact hgen _ Inv_empty

/-- C1: for every sequence of createRoom, joinRoom and leaveRoom operations starting
from the initial registry state, the Membership Index and the room member sets remain
mutually consistent: every client-to-room pointer in the index has a matching entry
in that room's member set, and no room's member set contains a client whose index
pointer disagrees. -/
theorem registry_run_consistent (cap : Nat) (ops : List Op) :
    Consistent (Registry.run cap ops) :=
  (Inv_run cap ops).2

theorem selectFor_cons {H : Type} (e : String) (p : String × H)
    (t : List (String × H)) :
    selectFor e (p :: t) =
      if p.1 = e then p.2 :: selectFor e t else selectFor e t := rfl

theorem receive_on {H : Type} (ch : Channel H) (e e2 : String) (h : H) :
    (ch.on e h).receive e2 =
      if e = e2 then ch.receive e2 ++ [h] else ch.receive e2 := by
  rw [Channel.on]
  cases hl : alookup ch.listeners e with
  | none =>
    by_cases he : e = e2
    · subst he
      rw [if_pos rfl, Channel.receive, Channel.receive]
      show (alookup (aset ch.listeners e [h]) e).getD [] = _
      rw [alookup_aset_self, hl]
      rfl
    · rw [if_neg he, Channel.receive, Channel.receive]
      show (alookup (aset ch.listeners e [h]) e2).getD [] = _
      rw [alookup_aset_ne (fun hx => he hx.symm)]
  | some hs =>
    by_cases he : e = e2
    · subst he
      rw [if_pos rfl, Channel.receive, Channel.receive]
      show (alookup (aset ch.listeners e (hs ++ [h])) e).getD [] = _
      rw [alookup_aset_self, hl]
      rfl
    · rw [if_neg he, Channel.receive, Channel.receive]
      show (alookup (aset ch.listeners e (hs ++ [h])) e2).getD [] = _
      rw [alookup_aset_ne (fun hx => he hx.symm)]

theorem onAll_receive {H : Type} (subs : List (String × H)) (e : String) :
    ∀ ch : Channel H,
      (ch.onAll subs).receive e = ch.receive e ++ selectFor e subs := by
  induction subs with
  | nil =>
    intro ch
    rw [Channel.onAll, List.foldl_nil, selectFor, List.append_nil]
  | cons p t ih =>
    intro ch
    obtain ⟨e1, h1⟩ := p
    show (Channel.onAll (ch.on e1 h1) t).receive e = _
    rw [ih, receive_on, selectFor_cons]
    by_cases he : e1 = e
    · rw [if_pos he, if_pos he, List.append_assoc]
      rfl
    · rw [if_neg he, if_neg he]

/-- C8: every handler registered via subscribe for an event name is invoked on each
received event of that name, and handlers registered for the same name are invoked
in registration order: the invocation sequence produced by receive equals the
sequence of handlers registered under that name, in registration order. -/
theorem subscribe_receive_order {H : Type} (subs : List (String × H)) (e : String) :
    (Channel.onAll ⟨[]⟩ subs).receive e = selectFor e subs := by
  rw [onAll_receive subs e ⟨[]⟩]
  show (alookup [] e).getD [] ++ selectFor e subs = selectFor e subs
  rw [alookup]
  exact List.nil_append _

theorem mem_broadcastDrawing {s : Registry} {clients : List ClientId}
    {r : RoomId} {c : ClientId} :
    c ∈ broadcastDrawing s clients r ↔
      c ∈ clients ∧ alookup s.index c = some r := by
  simp [broadcastDrawing]

/-- C9: for a drawing broadcast scoped to room r, each connected client whose
current room per the Membership Index is r receives the drawing-update exactly once
on its channel, and every client whose index pointer is not r — in particular a
client occupying no room at all — receives nothing. -/
theorem drawing_broadcast_scoped (s : Registry) (clients : List ClientId)
    (r : RoomId) (c : ClientId) (hn : clients.Nodup) (hc : c ∈ clients) :
    (alookup s.index c = some r →
      (broadcastDrawing s clients r).count c = 1) ∧
    (alookup s.index c ≠ some r → c ∉ broadcastDrawing s clients r) := by
  constructor
  · intro hidx
    exact List.count_eq_one_of_mem (hn.filter _)
      (mem_broadcastDrawing.mpr ⟨hc, hidx⟩)
  · intro hidx hmem
    exact hidx (mem_broadcastDrawing.mp hmem).2

/-- Witness for C9 at a concrete registry: client B, a member of room AB12CD,
receives the broadcast exactly once, the hypotheses holding by computation. -/
theorem drawing_broadcast_scoped_witness :
    (["A", "B", "C"] : List ClientId).Nodup ∧ ("B" : ClientId) ∈ ["A", "B", "C"] ∧
    (broadcastDrawing ⟨[("AB12CD", ["A", "B"])], [("A", "AB12CD"), ("B", "AB12CD")]⟩
      ["A", "B", "C"] "AB12CD").count "B" = 1 :=
  ⟨by decide, by decide,
    (drawing_broadcast_scoped ⟨[("AB12CD", ["A", "B"])],
        [("A", "AB12CD"), ("B", "AB12CD")]⟩ ["A", "B", "C"] "AB12CD" "B"
      (by decide) (by decide)).1 (by decide)⟩

theorem alookup_append_some {α : Type} {l1 : List (String × α)}
    (l2 : List (String × α)) {k : String} {v : α}
    (h : alookup l1 k = some v) : alookup (l1 ++ l2) k = some v := by
  induction l1 with
  | nil => cases h
  | cons q t ih =>
    obtain ⟨k1, v1⟩ := q
    rw [alookup_cons] at h
    rw [List.cons_append, alookup_cons]
    by_cases hk : k1 = k
    · rw [if_pos hk] at h
      rw [if_pos hk]
      exact h
    · rw [if_neg hk] at h
      rw [if_neg hk]
      exact ih h

theorem alookup_append_none {α : Type} {l1 : List (String × α)}
    (l2 : List (String × α)) {k : String} (h : alookup l1 k = none) :
    alookup (l1 ++ l2) k = alookup l2 k := by
  induction l1 with
  | nil => rfl
  | cons q t ih =>
    obtain ⟨k1, v1⟩ := q
    rw [alookup_cons] at h
    rw [List.cons_append, alookup_cons]
    by_cases hk : k1 = k
    · rw [if_pos hk] at h
      cases h
    · rw [if_neg hk] at h
      rw [if_neg hk]
      exact ih h

theorem alookup_map_pair {ms : List ClientId} {r : RoomId} {c : ClientId} :
    alookup (ms.map (fun x => (x, r))) c = if c ∈ ms then some r else none := by
  induction ms with
  | nil => simp [alookup]
  | cons x t ih =>
    rw [List.map_cons, alookup_cons]
    by_cases h : x = c
    · subst h
      simp
    · have hne : ¬ c = x := fun he => h he.symm
      rw [if_neg h, ih]
      simp [List.mem_cons, hne]

theorem indexOfSnapshot_cons (r : RoomId) (ms : List ClientId) (t : Snapshot) :
    indexOfSnapshot ((r, ms) :: t) =
      ms.map (fun c => (c, r)) ++ indexOfSnapshot t := rfl

theorem alookup_indexOfSnapshot_some {snap : Snapshot} {c : ClientId} {r : RoomId}
    (hocc : ∃ q ∈ snap, (q : RoomId × List ClientId).1 = r ∧ c ∈ q.2)
    (huniq : ∀ q ∈ snap, c ∈ (q : RoomId × List ClientId).2 → q.1 = r) :
    alookup (indexOfSnapshot snap) c = some r := by
  induction snap with
  | nil =>
    obtain ⟨q, hq, _⟩ := hocc
    cases hq
  | cons q t ih =>
    obtain ⟨r1, ms1⟩ := q
    rw [indexOfSnapshot_cons]
    by_cases hc : c ∈ ms1
    · have hr1 : r1 = r := huniq (r1, ms1) (List.mem_cons_self _ _) hc
      subst hr1
      exact alookup_append_some _ (by rw [alookup_map_pair, if_pos hc])
    · rw [alookup_append_none _ (by rw [alookup_map_pair, if_neg hc])]
      apply ih
      · obtain ⟨q2, hq2, hq2r, hq2c⟩ := hocc
        rcases List.mem_cons.mp hq2 with rfl | hq2t
        · exact absurd hq2c hc
        · exact ⟨q2, hq2t, hq2r, hq2c⟩
      · intro q2 hq2 hq2c
        exact huniq q2 (List.mem_cons_of_mem _ hq2) hq2c

theorem alookup_indexOfSnapshot_none {snap : Snapshot} {c : ClientId}
    (h : ∀ q ∈ snap, c ∉ (q : RoomId × List ClientId).2) :
    alookup (indexOfSnapshot snap) c = none := by
  induction snap with
  | nil => rfl
  | cons q t ih =>
    obtain ⟨r1, ms1⟩ := q
    rw [indexOfSnapshot_cons]
    rw [alookup_append_none _ (by
      rw [alookup_map_pair,
        if_neg (h (r1, ms1) (List.mem_cons_self _ _))])]
    apply ih
    intro q2 hq2
    exact h q2 (List.mem_cons_of_mem _ hq2)

theorem index_roundtrip {s : Registry} (hs : Inv s) (c : ClientId) :
    alookup (indexOfSnapshot s.rooms) c = alookup s.index c := by
  obtain ⟨⟨hrk, hik, hmn⟩, hc1, hc2⟩ := hs
  cases h : alookup s.index c with
  | some r =>
    apply alookup_indexOfSnapshot_some
    · have h1 := hc1 (c, r) (mem_of_alookup h)
      rw [membersOf] at h1
      cases h2 : alookup s.rooms r with
      | none =>
        rw [h2] at h1
        cases h1
      | some ms =>
        rw [h2] at h1
        exact ⟨(r, ms), mem_of_alookup h2, rfl, h1⟩
    · intro q hq hcq
      have hidx := hc2 q hq c hcq
      rw [h] at hidx
      injection hidx with he
      exact he.symm
  | none =>
    apply alookup_indexOfSnapshot_none
    intro q hq hcq
    have hidx := hc2 q hq c hcq
    rw [h] at hidx
    cases hidx

/-- C7: saving a registry's snapshot and loading it on a fresh registry instance is
lossless: the loaded snapshot is exactly the saved one (reflecting the most recent
save), load leaves the store unchanged so repeated loads return the same snapshot,
and the reconstructed registry has the same rooms and an extensionally equal
Membership Index. -/
theorem snapshot_roundtrip (st : Store) (s : Registry) (hs : Inv s) :
    ((st.save (snapshotOf s)).load.1 = snapshotOf s) ∧
    ((st.save (snapshotOf s)).load.2 = st.save (snapshotOf s)) ∧
    ((registryOfSnapshot ((st.save (snapshotOf s)).load.1)).rooms = s.rooms) ∧
    (∀ c : ClientId,
      alookup (registryOfSnapshot ((st.save (snapshotOf s)).load.1)).index c =
        alookup s.index c) := by
  refine ⟨rfl, rfl, rfl, ?_⟩
  intro c
  exact index_roundtrip hs c

/-- Witness for C7 at a concrete two-member registry whose invariant holds by
computation. -/
theorem snapshot_roundtrip_witness :
    Inv (⟨[("AB12CD", ["A", "B"])], [("A", "AB12CD"), ("B", "AB12CD")]⟩ : Registry) ∧
    alookup (registryOfSnapshot ((Store.save ⟨[]⟩
        (snapshotOf ⟨[("AB12CD", ["A", "B"])],
          [("A", "AB12CD"), ("B", "AB12CD")]⟩)).load.1)).index "A" =
      alookup (⟨[("AB12CD", ["A", "B"])],
        [("A", "AB12CD"), ("B", "AB12CD")]⟩ : Registry).index "A" :=
  ⟨by decide,
    (snapshot_roundtrip ⟨[]⟩ ⟨[("AB12CD", ["A", "B"])],
      [("A", "AB12CD"), ("B", "AB12CD")]⟩ (by decide)).2.2.2 "A"⟩

theorem runRequest_none {α : Type} (v : α) :
    runRequest none v = ⟨PState.rejectedTimeout, false⟩ := rfl

theorem runRequest_early {α : Type} {t : Nat} (v : α)
    (h : t < requestTimeoutMs) :
    runRequest (some t) v = ⟨PState.resolved v, false⟩ := by
  rw [runRequest, schedule, if_pos h]
  rfl

theorem runRequest_late {α : Type} {t : Nat} (v : α)
    (h : ¬ t < requestTimeoutMs) :
    runRequest (some t) v = ⟨PState.rejectedTimeout, false⟩ := by
  rw [runRequest, schedule, if_neg h]
  rfl

/-- C6: every create-room or join-room request settles — after its happenings are
processed the promise is no longer pending — within the bounded timeout (the
settlement time never exceeds requestTimeoutMs), and settlement is exactly-once: an
acknowledgement callback firing at or after the timeout finds the promise already
rejected, and its resolution attempt is ignored rather than resolving a second
time. -/
theorem request_settles {α : Type} (ackTime : Option Nat) (v : α) :
    (runRequest ackTime v).promise ≠ PState.pending ∧
    settleTime ackTime ≤ requestTimeoutMs ∧
    (∀ t, ackTime = some t → requestTimeoutMs ≤ t →
      (runRequest ackTime v).promise = PState.rejectedTimeout) := by
  refine ⟨?_, ?_, ?_⟩
  · cases ackTime with
    | none =>
      rw [runRequest_none]
      intro hcon
      cases hcon
    | some t =>
      by_cases h : t < requestTimeoutMs
      · rw [runRequest_early v h]
        intro hcon
        cases hcon
      · rw [runRequest_late v h]
        intro hcon
        cases hcon
  · cases ackTime with
    | none => exact le_refl _
    | some t => exact min_le_right _ _
  · intro t ht hle
    subst ht
    rw [runRequest_late v (not_lt.mpr hle)]

/-- Witness for C6: an acknowledgement arriving at 6000 ms, after the 5000 ms
timeout, leaves the promise rejected rather than resolving it. -/
theorem request_settles_witness :
    (runRequest (some 6000) true).promise = PState.rejectedTimeout :=
  (request_settles (some 6000) true).2.2 6000 rfl (by decide)

/-- C2 counterexample: a join-room request for the nonexistent room ZZZZZZ by a
client that currently occupies room AB12CD returns false, yet the Membership Index
is not the same afterwards — the request cleared the client's prior membership
before attempting the join (src lines 59-60). -/
theorem join_missing_clears_prior_membership :
    (emitJoinRoom ⟨[("AB12CD", ["A"])], [("A", "AB12CD")]⟩ 8 "A" "ZZZZZZ").1 =
      false ∧
    (emitJoinRoom ⟨[("AB12CD", ["A"])], [("A", "AB12CD")]⟩ 8 "A" "ZZZZZZ").2.index ≠
      (⟨[("AB12CD", ["A"])], [("A", "AB12CD")]⟩ : Registry).index := by
  decide

/-- C2 (amended): a join-room request for a nonexistent room returns false without
throwing; the resulting registry is exactly the original with the requesting
client's prior membership cleared, so the Membership Index is unchanged precisely
when the client occupied no room beforehand. -/
theorem join_missing_room_fails {s : Registry} (cap : Nat) (c : ClientId)
    {r : RoomId} (h : alookup s.rooms r = none) :
    (emitJoinRoom s cap c r).1 = false ∧
    (emitJoinRoom s cap c r).2 = s.leaveRoom c ∧
    (alookup s.index c = none → (emitJoinRoom s cap c r).2 = s) := by
  have h1 : alookup (s.leaveRoom c).rooms r = none := leaveRoom_rooms_none c h
  rw [emitJoinRoom, joinRoom_eq_missing cap c h1]
  exact ⟨rfl, rfl, fun hidx => leaveRoom_eq_noop hidx⟩

/-- Witness for the amended C2: a client in no room joins the nonexistent room
ZZZZZZ and the registry is unchanged. -/
theorem join_missing_room_fails_witness :
    alookup (⟨[("AB12CD", ["A"])], [("A", "AB12CD")]⟩ : Registry).rooms "ZZZZZZ" =
      none ∧
    alookup (⟨[("AB12CD", ["A"])], [("A", "AB12CD")]⟩ : Registry).index "B" = none ∧
    (emitJoinRoom ⟨[("AB12CD", ["A"])], [("A", "AB12CD")]⟩ 8 "B" "ZZZZZZ").2 =
      ⟨[("AB12CD", ["A"])], [("A", "AB12CD")]⟩ :=
  ⟨by decide, by decide,
    (join_missing_room_fails 8 "B" (by decide)).2.2 (by decide)⟩

/-- C3, evaluated at the failing input: with client A the sole member of room
AB12CD, the registry-level joinRoom alone is idempotent and reports success without
duplicating membership, but the join-room request issued through the mock socket
first leaves the room, which empties and removes it, so the repeated join returns
false and the room no longer exists. -/
theorem repeat_join_sole_member_fails :
    Registry.joinRoom ⟨[("AB12CD", ["A"])], [("A", "AB12CD")]⟩ 8 "A" "AB12CD" =
      (true, ⟨[("AB12CD", ["A"])], [("A", "AB12CD")]⟩) ∧
    (emitJoinRoom ⟨[("AB12CD", ["A"])], [("A", "AB12CD")]⟩ 8 "A" "AB12CD").1 =
      false ∧
    alookup (emitJoinRoom ⟨[("AB12CD", ["A"])], [("A", "AB12CD")]⟩ 8 "A"
      "AB12CD").2.rooms "AB12CD" = none := by
  decide

/-- C4, evaluated at the failing input: disconnecting client A, a member of room
AB12CD, leaves the registry — member set and Membership Index — unchanged and
broadcasts player-left to no room, whereas the explicit façade leaveRoom removes
the membership and broadcasts player-left for the vacated room exactly once. -/
theorem disconnect_not_equivalent_to_leave :
    disconnectClient ⟨some "AB12CD", true⟩
        ⟨[("AB12CD", ["A", "B"])], [("A", "AB12CD"), ("B", "AB12CD")]⟩ =
      (⟨none, false⟩,
        ⟨[("AB12CD", ["A", "B"])], [("A", "AB12CD"), ("B", "AB12CD")]⟩, []) ∧
    facadeLeaveRoom ⟨some "AB12CD", true⟩
        ⟨[("AB12CD", ["A", "B"])], [("A", "AB12CD"), ("B", "AB12CD")]⟩ "A" =
      (⟨none, true⟩, ⟨[("AB12CD", ["B"])], [("B", "AB12CD")]⟩, ["AB12CD"]) := by
  decide

/-- C5: the Session Façade's joinRoom rejects any input whose length is not six
characters (the empty string included) synchronously: the call returns false rather
than throwing, and no join-room request event is emitted on the Event Channel. -/
theorem facade_join_invalid_code (cap : Nat) (f : Facade) (s : Registry)
    (c : ClientId) (input : String) (hlen : input.length ≠ 6) :
    (facadeJoinRoom true cap f s c input).map Prod.fst = some false ∧
    ∀ out ∈ facadeJoinRoom true cap f s c input, "join-room" ∉ out.2.2.2 := by
  cases hf : f.roomId with
  | none =>
    constructor
    · simp [facadeJoinRoom, hf, hlen]
    · intro out hout
      simp [facadeJoinRoom, hf, hlen] at hout
      rw [← hout]
      simp
  | some r0 =>
    constructor
    · simp [facadeJoinRoom, hf, hlen]
    · intro out hout
      simp [facadeJoinRoom, hf, hlen] at hout
      rw [← hout]
      show ("join-room" : String) ∉ ["leave-room"]
      decide

/-- Witness for C5 at the empty string: the façade returns false synchronously. -/
theorem facade_join_invalid_code_witness :
    ("" : String).length ≠ 6 ∧
    (facadeJoinRoom true 8 ⟨none, true⟩ Registry.empty "A" "").map Prod.fst =
      some false :=
  ⟨by decide,
    (facade_join_invalid_code 8 ⟨none, true⟩ Registry.empty "A" "" (by decide)).1⟩


theorem emitJoinRoom_failed_index (s : Registry) (cap : Nat) (c : ClientId)
    (r : RoomId) (h : (emitJoinRoom s cap c r).1 = false) :
    alookup (emitJoinRoom s cap c r).2.index c = none := by
  rw [emitJoinRoom] at h ⊢
  cases hr : alookup (s.leaveRoom c).rooms r with
  | none =>
    rw [joinRoom_eq_missing cap c hr]
    exact leaveRoom_index_self s c
  | some ms =>
    by_cases hm : c ∈ ms
    · rw [joinRoom_eq_member cap hr hm] at h
      cases h
    · by_cases hcap : cap ≤ ms.length
      · rw [joinRoom_eq_full hr hm hcap]
        exact leaveRoom_index_self s c
      · cases h1 : alookup ((s.leaveRoom c).leaveRoom c).rooms r with
        | none =>
          rw [joinRoom_eq_vanished hr hm hcap h1]
          exact leaveRoom_index_self _ c
        | some ms1 =>
          rw [joinRoom_eq_add hr hm hcap h1] at h
          cases h

/-- C10: on every Session Façade joinRoom call made while the façade holds a room
id, the façade emits leave-room and clears its room id and server-side membership
before validating the new code: for every input whatsoever the emitted event
sequence begins with leave-room, and whenever the call fails — a malformed
(non-6-character) code, a nonexistent room, or a rejected join alike — the façade's
room id is cleared and the client occupies no room at all afterwards, rather than
keeping its previous membership. -/
theorem facade_join_clears_previous_room (cap : Nat) (f : Facade) (s : Registry)
    (c : ClientId) (input : String) (r0 : RoomId) (hf : f.roomId = some r0) :
    (facadeJoinRoom true cap f s c input).map
        (fun out => out.2.2.2.head?) = some (some "leave-room") ∧
    ∀ out, facadeJoinRoom true cap f s c input = some out → out.1 = false →
      out.2.1.roomId = none ∧ alookup out.2.2.1.index c = none := by
  by_cases hlen : input.length ≠ 6
  · constructor
    · simp [facadeJoinRoom, hf, hlen]
    · intro out hout hfail
      simp [facadeJoinRoom, hf, hlen] at hout
      rw [← hout]
      exact ⟨rfl, leaveRoom_index_self s c⟩
  · cases hex : alookup (s.leaveRoom c).rooms input with
    | none =>
      constructor
      · simp [facadeJoinRoom, hf, hlen, hex]
      · intro out hout hfail
        simp [facadeJoinRoom, hf, hlen, hex] at hout
        rw [← hout]
        exact ⟨rfl, leaveRoom_index_self s c⟩
    | some ms =>
      constructor
      · simp [facadeJoinRoom, hf, hlen, hex]
      · intro out hout hfail
        simp [facadeJoinRoom, hf, hlen, hex] at hout
        rw [← hout] at hfail ⊢
        have hres : (emitJoinRoom (s.leaveRoom c) cap c input).1 = false := hfail
        constructor
        · show (if (emitJoinRoom (s.leaveRoom c) cap c input).1 = true
              then some input else none) = none
          rw [hres]
          simp
        · exact emitJoinRoom_failed_index (s.leaveRoom c) cap c input hres

/-- Witness for C10: a façade holding room AB12CD issues a join for the well-formed
but nonexistent code ZZZZZZ; leave-room heads the emitted events, and the failed
call leaves the façade room id cleared and the client in no room. -/
theorem facade_join_clears_previous_room_witness :
    (⟨some "AB12CD", true⟩ : Facade).roomId = some "AB12CD" ∧
    (facadeJoinRoom true 8 ⟨some "AB12CD", true⟩
        ⟨[("AB12CD", ["A"])], [("A", "AB12CD")]⟩ "A" "ZZZZZZ").map
        (fun out => out.2.2.2.head?) = some (some "leave-room") ∧
    ((⟨none, true⟩ : Facade).roomId = none ∧
      alookup (⟨[], []⟩ : Registry).index "A" = none) :=
  ⟨rfl,
    (facade_join_clears_previous_room 8 ⟨some "AB12CD", true⟩
      ⟨[("AB12CD", ["A"])], [("A", "AB12CD")]⟩ "A" "ZZZZZZ" "AB12CD" rfl).1,
    (facade_join_clears_previous_room 8 ⟨some "AB12CD", true⟩
      ⟨[("AB12CD", ["A"])], [("A", "AB12CD")]⟩ "A" "ZZZZZZ" "AB12CD" rfl).2
      (false, ⟨none, true⟩, ⟨[], []⟩, ["leave-room"]) (by decide) rfl⟩

end Broker
